import Mathlib

/-!
Shallow embedding of `minify_and_split.py`, a tool that minifies an SVG
document line by line and splits it around two literal marker comments.
Documents are modelled as `List Char`; Python string primitives
(`str.strip`, `str.split`, `str.find`, slicing) are modelled by the
corresponding list operations.
-/

namespace MinifySplit

/-- Python whitespace characters recognised by `str.strip()` (ASCII range). -/
def isPySpace (c : Char) : Bool :=
  c = ' ' || c = '\t' || c = '\n' || c = '\r' || c = '\x0b' || c = '\x0c'

/-- Python `str.lstrip()`: drop leading whitespace. -/
def lstrip (s : List Char) : List Char := s.dropWhile isPySpace

/-- Python `str.rstrip()`: drop trailing whitespace. -/
def rstrip (s : List Char) : List Char := (s.reverse.dropWhile isPySpace).reverse

/-- Python `str.strip()`: drop leading and trailing whitespace. -/
def strip (s : List Char) : List Char := rstrip (lstrip s)

/-- Helper for `content.split('\n')`: returns the first line and the
remaining lines of the input. -/
def splitLinesAux : List Char → List Char × List (List Char)
  | [] => ([], [])
  | c :: rest =>
    let p := splitLinesAux rest
    if c = '\n' then ([], p.1 :: p.2) else (c :: p.1, p.2)

/-- Python `content.split('\n')` (always returns at least one line). -/
def splitOnNewline (s : List Char) : List (List Char) :=
  (splitLinesAux s).1 :: (splitLinesAux s).2

/-- The loop-body condition of the comment scan in `minify_content`:
position `i` holds `'//'` (`stripped[i:i+2] == '//'` with a following
character present) and is preceded by a character that is not `':'`
(`i > 0 and stripped[i-1] != ':'`). -/
def Qualifies (s : List Char) (i : Nat) : Prop :=
  s.get? i = some '/' ∧ s.get? (i + 1) = some '/' ∧ 0 < i ∧ s.get? (i - 1) ≠ some ':'

instance (s : List Char) (i : Nat) : Decidable (Qualifies s i) := by
  unfold Qualifies; infer_instance

/-- The scan loop `for i in range(len(stripped) - 1)` of `minify_content`,
with explicit fuel; returns the first qualifying position at or after `i`. -/
def scanFrom (s : List Char) : Nat → Nat → Option Nat
  | 0, _ => none
  | fuel + 1, i =>
    if i + 1 < s.length then
      if Qualifies s i then some i else scanFrom s fuel (i + 1)
    else none

/-- `comment_pos` computation of `minify_content`: first `'//'` occurrence
not immediately preceded by `':'` (and not at position 0), or `none`. -/
def findCommentPos (s : List Char) : Option Nat := scanFrom s s.length 0

/-- The literal `'<!--'`. -/
def htmlOpen : List Char := "<!--".toList

/-- The literal `'-->'`. -/
def htmlClose : List Char := "-->".toList

/-- The literal `'//'`. -/
def slashSlash : List Char := "//".toList

/-- The body of the `for line in lines` loop of `minify_content`: returns
`none` when the line is skipped, otherwise the processed line that is
appended to `minified_lines`. -/
def processLine (line : List Char) : Option (List Char) :=
  let stripped := strip line
  if stripped = [] then none
  else if htmlOpen <+: stripped ∧ htmlClose <:+ stripped then none
  else if slashSlash <+: stripped then none
  else
    let stripped2 :=
      match findCommentPos stripped with
      | some i => rstrip (stripped.take i)
      | none => stripped
    if stripped2 = [] then none else some stripped2

/-- `minify_content`: split into lines, filter/transform each line, and
join the survivors with no separator. -/
def minify_content (content : List Char) : List Char :=
  ((splitOnNewline content).filterMap processLine).flatten

/-- Python `content.find(pat)`, as an `Option`: index of the first
occurrence of `pat` as a contiguous substring, `none` when absent. -/
def findSub (pat : List Char) : List Char → Option Nat
  | [] => if pat <+: ([] : List Char) then some 0 else none
  | c :: rest =>
    if pat <+: (c :: rest) then some 0 else (findSub pat rest).map (· + 1)

/-- The literal start marker of `split_svg`. -/
def start_marker : List Char := "<!-- Dynamic Content Start -->".toList

/-- The literal end marker of `split_svg`. -/
def end_marker : List Char := "<!-- Dynamic Content End -->".toList

/-- The raw split of `split_svg` (lines 68-77): locate both markers and
return `content[:start_pos]` and `content[end_pos + len(end_marker):]`,
or `none` when either `find` fails. -/
def split_parts (content : List Char) : Option (List Char × List Char) :=
  match findSub start_marker content, findSub end_marker content with
  | some start_pos, some end_pos =>
      some (content.take start_pos, content.drop (end_pos + end_marker.length))
  | _, _ => none

/-- `split_svg` without the I/O: minified start part, minified end part and
minified full content, or `none` when a marker is missing. -/
def split_svg (content : List Char) : Option (List Char × List Char × List Char) :=
  match split_parts content with
  | some p => some (minify_content p.1, minify_content p.2, minify_content content)
  | none => none

/-- The file writes performed by `main` on a given document content, as a
list of (file name, written content) pairs; `main` returns before any
write when `split_svg` failed. -/
def main_writes (content : List Char) : List (String × List Char) :=
  match split_svg content with
  | some r =>
      [("paint.min.start.svg", r.1), ("paint.min.end.svg", r.2.1),
       ("paint.min.svg", r.2.2)]
  | none => []

/-- `pat` occurs as a contiguous substring of `s`. -/
def OccursIn (pat s : List Char) : Prop := ∃ i, pat <+: s.drop i

instance (pat s : List Char) : Decidable (OccursIn pat s) :=
  decidable_of_iff (¬ ∀ i, i < s.length + 1 → ¬ pat <+: s.drop i)
    (by
      rw [not_forall]
      constructor
      · rintro ⟨i, hi⟩
        rw [Classical.not_imp, not_not] at hi
        exact ⟨i, hi.2⟩
      · rintro ⟨i, h⟩
        by_cases hlen : i < s.length + 1
        · exact ⟨i, by rw [Classical.not_imp, not_not]; exact ⟨hlen, h⟩⟩
        · refine ⟨s.length, ?_⟩
          rw [Classical.not_imp, not_not]
          refine ⟨Nat.lt_succ_self _, ?_⟩
          rw [List.drop_length]
          rwa [List.drop_eq_nil_of_le (by omega)] at h)

/-- `pat` occurs in `s` at position `i`, and at no earlier position. -/
def FirstOccurAt (pat s : List Char) (i : Nat) : Prop :=
  pat <+: s.drop i ∧ ∀ j, j < i → ¬ pat <+: s.drop j

instance (pat s : List Char) (i : Nat) : Decidable (FirstOccurAt pat s i) := by
  unfold FirstOccurAt; infer_instance

/-- The example document of the specification. -/
def exDoc : List Char :=
  ("<!--c-->\nA\n<!-- Dynamic Content Start -->\nMID\n" ++
   "<!-- Dynamic Content End -->\nB // x\n").toList

/-! ### Correctness of `findSub` (Python `str.find`) -/

theorem findSub_some (pat : List Char) :
    ∀ s i, findSub pat s = some i →
      pat <+: s.drop i ∧ ∀ j, j < i → ¬ pat <+: s.drop j := by
  intro s
  induction s with
  | nil =>
    intro i h
    simp only [findSub] at h
    split at h
    · rename_i hp
      injection h with h0
      subst h0
      exact ⟨hp, fun j hj => by omega⟩
    · cases h
  | cons c rest ih =>
    intro i h
    simp only [findSub] at h
    split at h
    · rename_i hp
      injection h with h0
      subst h0
      exact ⟨hp, fun j hj => by omega⟩
    · rename_i hp
      rw [Option.map_eq_some'] at h
      obtain ⟨i', hfi, hi⟩ := h
      subst hi
      obtain ⟨h1, h2⟩ := ih i' hfi
      refine ⟨by simpa using h1, fun j hj => ?_⟩
      cases j with
      | zero => simpa using hp
      | succ j' =>
        have hj' : j' < i' := by omega
        simpa using h2 j' hj'

theorem findSub_none (pat : List Char) :
    ∀ s, findSub pat s = none → ∀ j, ¬ pat <+: s.drop j := by
  intro s
  induction s with
  | nil =>
    intro h j
    simp only [findSub] at h
    split at h
    · cases h
    · rename_i hp
      simpa using hp
  | cons c rest ih =>
    intro h j
    simp only [findSub] at h
    split at h
    · cases h
    · rename_i hp
      rw [Option.map_eq_none'] at h
      cases j with
      | zero => simpa using hp
      | succ j' => simpa using ih h j'

theorem findSub_eq_none (pat s : List Char) (h : ∀ j, ¬ pat <+: s.drop j) :
    findSub pat s = none := by
  cases hf : findSub pat s with
  | none => rfl
  | some i => exact absurd (findSub_some pat s i hf).1 (h i)

theorem findSub_eq_some (pat s : List Char) (i : Nat) (h1 : pat <+: s.drop i)
    (h2 : ∀ j, j < i → ¬ pat <+: s.drop j) : findSub pat s = some i := by
  cases hf : findSub pat s with
  | none => exact absurd h1 (findSub_none pat s hf i)
  | some j =>
    obtain ⟨hp, hl⟩ := findSub_some pat s j hf
    rcases lt_trichotomy i j with hij | hij | hij
    · exact absurd h1 (hl i hij)
    · rw [hij]
    · exact absurd hp (h2 j hij)

theorem findSub_isSome_of_occursIn {pat s : List Char} (h : OccursIn pat s) :
    ∃ i, findSub pat s = some i := by
  cases hf : findSub pat s with
  | some i => exact ⟨i, rfl⟩
  | none =>
    obtain ⟨j, hj⟩ := h
    exact absurd hj (findSub_none pat s hf j)

/-! ### Correctness of the comment-position scan -/

theorem qualifies_lt_length {s : List Char} {i : Nat} (h : Qualifies s i) :
    i + 1 < s.length := by
  simp only [Qualifies] at h
  obtain ⟨-, h2, -, -⟩ := h
  obtain ⟨hlt, -⟩ := List.get?_eq_some.1 h2
  exact hlt

theorem scanFrom_some (s : List Char) :
    ∀ fuel i j, scanFrom s fuel i = some j →
      i ≤ j ∧ Qualifies s j ∧ ∀ k, i ≤ k → k < j → ¬ Qualifies s k := by
  intro fuel
  induction fuel with
  | zero => intro i j h; simp [scanFrom] at h
  | succ n ih =>
    intro i j h
    simp only [scanFrom] at h
    split at h
    · split at h
      · rename_i hq
        injection h with h0
        subst h0
        exact ⟨Nat.le_refl _, hq, fun k hk1 hk2 => by omega⟩
      · rename_i hq
        obtain ⟨h1, h2, h3⟩ := ih (i + 1) j h
        refine ⟨by omega, h2, fun k hk1 hk2 => ?_⟩
        rcases Nat.eq_or_lt_of_le hk1 with heq | hlt
        · rw [← heq]; exact hq
        · exact h3 k hlt hk2
    · cases h

theorem scanFrom_none (s : List Char) :
    ∀ fuel i, s.length ≤ i + fuel → scanFrom s fuel i = none →
      ∀ k, i ≤ k → ¬ Qualifies s k := by
  intro fuel
  induction fuel with
  | zero =>
    intro i hlen _ k hk hq
    have := qualifies_lt_length hq
    omega
  | succ n ih =>
    intro i hlen h k hk hq
    simp only [scanFrom] at h
    split at h
    · split at h
      · cases h
      · rename_i hqi
        rcases Nat.eq_or_lt_of_le hk with heq | hlt
        · rw [← heq] at hq; exact hqi hq
        · exact ih (i + 1) (by omega) h k (by omega) hq
    · rename_i hb
      have := qualifies_lt_length hq
      omega

theorem findCommentPos_some {s : List Char} {j : Nat} (h : findCommentPos s = some j) :
    Qualifies s j ∧ ∀ k, k < j → ¬ Qualifies s k := by
  obtain ⟨-, h2, h3⟩ := scanFrom_some s s.length 0 j h
  exact ⟨h2, fun k hk => h3 k (Nat.zero_le _) hk⟩

theorem findCommentPos_none {s : List Char} (h : findCommentPos s = none) :
    ∀ k, ¬ Qualifies s k :=
  fun k => scanFrom_none s s.length 0 (by omega) h k (Nat.zero_le _)

theorem findCommentPos_eq_none {s : List Char} (h : ∀ k, ¬ Qualifies s k) :
    findCommentPos s = none := by
  cases hf : findCommentPos s with
  | none => rfl
  | some j => exact absurd (findCommentPos_some hf).1 (h j)

theorem findCommentPos_eq_some {s : List Char} {i : Nat} (h1 : Qualifies s i)
    (h2 : ∀ k, k < i → ¬ Qualifies s k) : findCommentPos s = some i := by
  cases hf : findCommentPos s with
  | none => exact absurd h1 (findCommentPos_none hf i)
  | some j =>
    obtain ⟨hq, hl⟩ := findCommentPos_some hf
    rcases lt_trichotomy i j with hij | hij | hij
    · exact absurd h1 (hl i hij)
    · rw [hij]
    · exact absurd hq (h2 j hij)

/-! ### Structure of `strip` and occurrence transfer -/

theorem lstrip_eq_append (s : List Char) : ∃ a, s = a ++ lstrip s :=
  ⟨s.takeWhile isPySpace, (List.takeWhile_append_dropWhile isPySpace s).symm⟩

theorem rstrip_eq_append (s : List Char) : ∃ b, s = rstrip s ++ b := by
  refine ⟨(s.reverse.takeWhile isPySpace).reverse, ?_⟩
  rw [rstrip, ← List.reverse_append, List.takeWhile_append_dropWhile,
    List.reverse_reverse]

theorem strip_parts (s : List Char) : ∃ a b, s = a ++ strip s ++ b := by
  obtain ⟨a, ha⟩ := lstrip_eq_append s
  obtain ⟨b, hb⟩ := rstrip_eq_append (lstrip s)
  refine ⟨a, b, ?_⟩
  conv_lhs => rw [ha, hb]
  simp [strip, List.append_assoc]

theorem rstrip_length_le (s : List Char) : (rstrip s).length ≤ s.length := by
  obtain ⟨b, hb⟩ := rstrip_eq_append s
  have := congrArg List.length hb
  simp only [List.length_append] at this
  omega

theorem strip_length_le (s : List Char) : (strip s).length ≤ s.length := by
  obtain ⟨a, b, h⟩ := strip_parts s
  have := congrArg List.length h
  simp only [List.length_append] at this
  omega

theorem occursIn_of_parts {pat s t u : List Char} (h : s = t ++ pat ++ u) :
    OccursIn pat s := by
  refine ⟨t.length, ?_⟩
  rw [h, List.append_assoc, List.drop_left]
  exact List.prefix_append pat u

theorem occursIn_parts {pat s : List Char} (h : OccursIn pat s) :
    ∃ t u, s = t ++ pat ++ u := by
  obtain ⟨i, hpre⟩ := h
  obtain ⟨r, hr⟩ := hpre
  refine ⟨s.take i, r, ?_⟩
  conv_lhs => rw [← List.take_append_drop i s]
  rw [← hr]
  simp [List.append_assoc]

theorem occursIn_of_occursIn_strip {pat l : List Char}
    (h : OccursIn pat (strip l)) : OccursIn pat l := by
  obtain ⟨t, u, htu⟩ := occursIn_parts h
  obtain ⟨a, b, hab⟩ := strip_parts l
  have : l = (a ++ t) ++ pat ++ (u ++ b) := by
    rw [hab, htu]; simp [List.append_assoc]
  exact occursIn_of_parts this

theorem occursIn_slash_of_qualifies {s : List Char} {i : Nat}
    (h : Qualifies s i) : OccursIn slashSlash s := by
  simp only [Qualifies] at h
  obtain ⟨h1, h2, -, -⟩ := h
  obtain ⟨hi, hgi⟩ := List.get?_eq_some.1 h1
  obtain ⟨hi2, hgi2⟩ := List.get?_eq_some.1 h2
  refine ⟨i, ?_⟩
  rw [List.drop_eq_getElem_cons hi, List.drop_eq_getElem_cons hi2]
  rw [List.get_eq_getElem] at hgi hgi2
  rw [hgi, hgi2]
  exact ⟨List.drop (i + 2) s, rfl⟩

/-! ### Per-line behaviour of the filter -/

theorem processLine_none_of_blank {l : List Char} (h : strip l = []) :
    processLine l = none := by
  simp [processLine, h]

theorem processLine_eq_strip {l : List Char} (h1 : strip l ≠ [])
    (h2 : ¬ (htmlOpen <+: strip l ∧ htmlClose <:+ strip l))
    (h3 : ¬ OccursIn slashSlash l) :
    processLine l = some (strip l) := by
  have hss : ¬ slashSlash <+: strip l := fun hp =>
    h3 (occursIn_of_occursIn_strip ⟨0, by simpa using hp⟩)
  have hcp : findCommentPos (strip l) = none :=
    findCommentPos_eq_none fun k hq =>
      h3 (occursIn_of_occursIn_strip (occursIn_slash_of_qualifies hq))
  simp [processLine, hcp, h1, h2, hss]

theorem processLine_length_le {l r : List Char} (h : processLine l = some r) :
    r.length ≤ l.length := by
  have hs := strip_length_le l
  simp only [processLine] at h
  split at h
  · cases h
  · split at h
    · cases h
    · split at h
      · cases h
      · split at h
        · cases h
        · injection h with h0
          subst h0
          split
          · rename_i i hi
            have h1 : (rstrip ((strip l).take i)).length ≤ ((strip l).take i).length :=
              rstrip_length_le _
            have h2 : ((strip l).take i).length ≤ (strip l).length := by
              rw [List.length_take]; omega
            omega
          · omega

/-! ### Line splitting and concatenation -/

theorem splitLinesAux_no_newline {l : List Char} (h : '\n' ∉ l) :
    splitLinesAux l = (l, []) := by
  induction l with
  | nil => rfl
  | cons c rest ih =>
    rw [List.mem_cons, not_or] at h
    rw [splitLinesAux, ih h.2]
    simp [Ne.symm h.1]

theorem sum_splitLinesAux (c : List Char) :
    (splitLinesAux c).1.length + (((splitLinesAux c).2).map List.length).sum ≤
      c.length := by
  induction c with
  | nil => simp [splitLinesAux]
  | cons a rest ih =>
    rw [splitLinesAux]
    by_cases ha : a = '\n'
    · subst ha
      simp only [if_true, eq_self_iff_true, List.map_cons, List.sum_cons,
        List.length_cons, List.length_nil]
      omega
    · simp only [if_neg ha, List.length_cons]
      omega

theorem flatten_filterMap_length (L : List (List Char)) :
    ((L.filterMap processLine).flatten).length ≤ (L.map List.length).sum := by
  induction L with
  | nil => simp
  | cons l L ih =>
    cases hp : processLine l with
    | none =>
      rw [List.filterMap_cons_none hp]
      simp only [List.map_cons, List.sum_cons]
      omega
    | some r =>
      rw [List.filterMap_cons_some hp]
      simp only [List.flatten_cons, List.length_append, List.map_cons,
        List.sum_cons]
      have := processLine_length_le hp
      omega

theorem filterMap_eq_map_of_strip {L : List (List Char)}
    (h : ∀ l ∈ L, processLine l = some (strip l)) :
    L.filterMap processLine = L.map strip := by
  induction L with
  | nil => rfl
  | cons a L ih =>
    rw [List.filterMap_cons_some (h a (by simp)), List.map_cons,
      ih fun l hl => h l (by simp [hl])]

/-! ### Claims -/

/-- Claim C1, as stated in the specification, is false: on the example
document the full-content minification pass drops the two marker lines
(each is a full-line HTML comment), so the full minified content is
`"AMIDB"` and not the claimed string that keeps the markers. -/
theorem c1_counterexample :
    ¬ (split_svg exDoc =
        some ("A".toList, "B".toList,
          "A<!-- Dynamic Content Start -->MID<!-- Dynamic Content End -->B".toList)) := by
  decide

/-- Claim C1 (amended): on the example document the minified start fragment
is `"A"`, the minified end fragment is `"B"`, and the minified full content
is `"AMIDB"`, because the marker lines are themselves full-line HTML
comments and are dropped by the full-content pass. -/
theorem c1_amended_example_scenario :
    split_svg exDoc = some ("A".toList, "B".toList, "AMIDB".toList) := by
  decide

/-- Claim C2: for every document containing both marker strings, the split
returns the substring strictly before the first occurrence of the start
marker together with the substring starting immediately after the end of
the first occurrence of the end marker, where both searches are plain
first-occurrence searches over the entire document. -/
theorem c2_split_is_first_occurrence_cut (content : List Char)
    (hs : OccursIn start_marker content) (he : OccursIn end_marker content) :
    ∃ sp ep, FirstOccurAt start_marker content sp ∧
      FirstOccurAt end_marker content ep ∧
      split_parts content =
        some (content.take sp, content.drop (ep + end_marker.length)) := by
  obtain ⟨sp, hsp⟩ := findSub_isSome_of_occursIn hs
  obtain ⟨ep, hep⟩ := findSub_isSome_of_occursIn he
  obtain ⟨hs1, hs2⟩ := findSub_some start_marker content sp hsp
  obtain ⟨he1, he2⟩ := findSub_some end_marker content ep hep
  exact ⟨sp, ep, ⟨hs1, hs2⟩, ⟨he1, he2⟩, by simp [split_parts, hsp, hep]⟩

theorem c2_witness :
    ∃ sp ep, FirstOccurAt start_marker exDoc sp ∧
      FirstOccurAt end_marker exDoc ep ∧
      split_parts exDoc = some (exDoc.take sp, exDoc.drop (ep + end_marker.length)) :=
  c2_split_is_first_occurrence_cut exDoc (by decide) (by decide)

/-- Claim C3: for every document containing both markers with the first
occurrence of the start marker strictly before the first occurrence of the
end marker, the unminified fragments returned by the split, with the
marker-delimited middle section (markers included) between them,
concatenate back to the original document. -/
theorem c3_roundtrip_reconstruction (content : List Char) (sp ep : Nat)
    (h1 : FirstOccurAt start_marker content sp)
    (h2 : FirstOccurAt end_marker content ep) (hlt : sp < ep) :
    split_parts content =
      some (content.take sp, content.drop (ep + end_marker.length)) ∧
    content.take sp ++ (content.drop sp).take (ep + end_marker.length - sp) ++
      content.drop (ep + end_marker.length) = content := by
  unfold FirstOccurAt at h1 h2
  have hsp : findSub start_marker content = some sp :=
    findSub_eq_some _ _ _ h1.1 h1.2
  have hep : findSub end_marker content = some ep :=
    findSub_eq_some _ _ _ h2.1 h2.2
  refine ⟨by simp [split_parts, hsp, hep], ?_⟩
  have hdd : (content.drop sp).drop (ep + end_marker.length - sp) =
      content.drop (ep + end_marker.length) := by
    rw [List.drop_drop]
    congr 1
    omega
  rw [List.append_assoc, ← hdd, List.take_append_drop, List.take_append_drop]

theorem c3_witness :
    split_parts exDoc = some (exDoc.take 11, exDoc.drop (46 + end_marker.length)) ∧
    exDoc.take 11 ++ (exDoc.drop 11).take (46 + end_marker.length - 11) ++
      exDoc.drop (46 + end_marker.length) = exDoc :=
  c3_roundtrip_reconstruction exDoc 11 46 (by decide) (by decide) (by decide)

/-- Claim C4: for every document in which at least one marker string does
not occur, the split reports failure (`none`) and `main` performs no file
write at all. -/
theorem c4_missing_marker_fails_without_writes (content : List Char)
    (h : ¬ OccursIn start_marker content ∨ ¬ OccursIn end_marker content) :
    split_svg content = none ∧ main_writes content = [] := by
  have hparts : split_parts content = none := by
    rcases h with h | h
    · have hn : findSub start_marker content = none :=
        findSub_eq_none _ _ fun j hj => h ⟨j, hj⟩
      cases he : findSub end_marker content <;> simp [split_parts, hn, he]
    · have hn : findSub end_marker content = none :=
        findSub_eq_none _ _ fun j hj => h ⟨j, hj⟩
      cases hs : findSub start_marker content <;> simp [split_parts, hn, hs]
  exact ⟨by simp [split_svg, hparts], by simp [main_writes, split_svg, hparts]⟩

theorem c4_witness :
    split_svg ("hello".toList) = none ∧ main_writes ("hello".toList) = [] :=
  c4_missing_marker_fails_without_writes ("hello".toList) (Or.inl (by decide))

/-- Claim C5: for every trimmed non-empty line that does not start with
`//` and is not a full-line HTML comment, the filter truncates it at the
first position holding `//` whose immediately preceding character exists
and is not `:` (only positions with a following character are scanned,
which `Qualifies` captures), then trims trailing whitespace and discards
the line if that leaves it empty; with no such position the line is kept
as trimmed. Moreover `foo // bar` minifies to `foo`, `http://example.com`
is kept unchanged, and lines `// comment` and `<!-- note -->` are dropped. -/
theorem c5_comment_truncation :
    (∀ l i, strip l ≠ [] →
      ¬ (htmlOpen <+: strip l ∧ htmlClose <:+ strip l) →
      ¬ slashSlash <+: strip l → Qualifies (strip l) i →
      (∀ j, j < i → ¬ Qualifies (strip l) j) →
      processLine l = (if rstrip ((strip l).take i) = [] then none
        else some (rstrip ((strip l).take i)))) ∧
    (∀ l, strip l ≠ [] →
      ¬ (htmlOpen <+: strip l ∧ htmlClose <:+ strip l) →
      ¬ slashSlash <+: strip l → (∀ i, ¬ Qualifies (strip l) i) →
      processLine l = some (strip l)) ∧
    minify_content "foo // bar".toList = "foo".toList ∧
    minify_content "http://example.com".toList = "http://example.com".toList ∧
    minify_content "// comment".toList = [] ∧
    minify_content "<!-- note -->".toList = [] := by
  refine ⟨?_, ?_, by decide, by decide, by decide, by decide⟩
  · intro l i h1 h2 h3 hq hleast
    have hcp := findCommentPos_eq_some hq hleast
    simp [processLine, h1, h2, h3, hcp]
  · intro l h1 h2 h3 hq
    have hcp := findCommentPos_eq_none hq
    simp [processLine, h1, h2, h3, hcp]

theorem c5_witness :
    processLine ("ab // cd".toList) =
      (if rstrip ((strip ("ab // cd".toList)).take 3) = ([] : List Char) then none
       else some (rstrip ((strip ("ab // cd".toList)).take 3))) :=
  c5_comment_truncation.1 ("ab // cd".toList) 3 (by decide) (by decide)
    (by decide) (by decide) (by decide)

/-- Claim C6: for every input whose lines are all non-blank after trimming
and free of comment syntax (no `//` substring in the line, and no trimmed
line that is a full-line HTML comment), the minified output is the
separator-free concatenation of the trimmed lines in order. -/
theorem c6_trimmed_concatenation (content : List Char)
    (h : ∀ l ∈ splitOnNewline content, strip l ≠ [] ∧
      ¬ OccursIn slashSlash l ∧
      ¬ (htmlOpen <+: strip l ∧ htmlClose <:+ strip l)) :
    minify_content content = ((splitOnNewline content).map strip).flatten := by
  rw [minify_content, filterMap_eq_map_of_strip]
  intro l hl
  obtain ⟨h1, h2, h3⟩ := h l hl
  exact processLine_eq_strip h1 h3 h2

theorem c6_witness :
    minify_content ("<a> \n <b>".toList) =
      ((splitOnNewline ("<a> \n <b>".toList)).map strip).flatten :=
  c6_trimmed_concatenation ("<a> \n <b>".toList) (by decide)

/-- Claim C7: a single-line document that is already trimmed and contains
no comment triggers (it is not a full-line HTML comment, does not start
with `//`, and has no `//` occurrence preceded by a character other than
`:`) is returned unchanged by the filter, and minification is therefore
idempotent on it. -/
theorem c7_idempotent_on_minified_single_line (content : List Char)
    (hnl : '\n' ∉ content) (hs : strip content = content)
    (h2 : ¬ (htmlOpen <+: content ∧ htmlClose <:+ content))
    (h3 : ¬ slashSlash <+: content)
    (h4 : ∀ i, ¬ Qualifies content i) :
    minify_content content = content ∧
    minify_content (minify_content content) = minify_content content := by
  have hsplit : splitOnNewline content = [content] := by
    rw [splitOnNewline, splitLinesAux_no_newline hnl]
  have hmain : minify_content content = content := by
    by_cases hemp : content = []
    · subst hemp; rfl
    · have hcp : findCommentPos content = none := findCommentPos_eq_none h4
      have hpl : processLine content = some content := by
        simp [processLine, hs, hemp, h2, h3, hcp]
      rw [minify_content, hsplit]
      simp [hpl]
  exact ⟨hmain, by rw [hmain, hmain]⟩

theorem c7_witness :
    minify_content ("<svg>".toList) = "<svg>".toList ∧
    minify_content (minify_content ("<svg>".toList)) =
      minify_content ("<svg>".toList) :=
  c7_idempotent_on_minified_single_line ("<svg>".toList) (by decide) (by decide)
    (by decide) (by decide)
    (findCommentPos_none (by decide : findCommentPos ("<svg>".toList) = none))

/-- Claim C8: a document all of whose lines are whitespace-only (the empty
document included) minifies to the empty string. -/
theorem c8_blank_document_minifies_to_empty (content : List Char)
    (h : ∀ l ∈ splitOnNewline content, strip l = []) :
    minify_content content = [] := by
  rw [minify_content]
  have hfm : (splitOnNewline content).filterMap processLine = [] := by
    rw [List.filterMap_eq_nil_iff]
    intro l hl
    exact processLine_none_of_blank (h l hl)
  rw [hfm]
  rfl

theorem c8_witness : minify_content ("  \n\t\n".toList) = [] :=
  c8_blank_document_minifies_to_empty ("  \n\t\n".toList) (by decide)

/-- Claim C9: minification never makes the content longer: for every input
the length of the filter output is at most the length of the input. -/
theorem c9_minify_never_longer (content : List Char) :
    (minify_content content).length ≤ content.length := by
  have h1 := flatten_filterMap_length (splitOnNewline content)
  have h2 := sum_splitLinesAux content
  rw [minify_content]
  refine Nat.le_trans h1 ?_
  simp only [splitOnNewline, List.map_cons, List.sum_cons]
  omega

/-- Claim C10: the raw start fragment returned by a successful split never
contains the start marker as a substring, because the split cuts at the
first occurrence of the start marker. -/
theorem c10_start_fragment_has_no_start_marker (content a b : List Char)
    (h : split_parts content = some (a, b)) : ¬ OccursIn start_marker a := by
  cases hs : findSub start_marker content with
  | none =>
    simp only [split_parts, hs] at h
    cases he : findSub end_marker content <;> simp [he] at h
  | some sp =>
    cases he : findSub end_marker content with
    | none => simp [split_parts, hs, he] at h
    | some ep =>
      simp only [split_parts, hs, he, Option.some.injEq, Prod.mk.injEq] at h
      obtain ⟨ha, hb⟩ := h
      rintro ⟨i, hpre⟩
      rw [← ha, List.drop_take] at hpre
      have hp2 : start_marker <+: content.drop i :=
        hpre.trans (List.take_prefix _ _)
      have hilt : i < sp := by
        have hle := List.IsPrefix.length_le hpre
        rw [List.length_take, le_min_iff] at hle
        have h30 : start_marker.length = 30 := by decide
        omega
      exact (findSub_some start_marker content sp hs).2 i hilt hp2

theorem c10_witness : ¬ OccursIn start_marker ("<!--c-->\nA\n".toList) :=
  c10_start_fragment_has_no_start_marker exDoc ("<!--c-->\nA\n".toList)
    ("\nB // x\n".toList) (by decide)

end MinifySplit
